import Mathlib

set_option maxRecDepth 40000
set_option maxHeartbeats 1000000

/-!
Verification of the enpay x402 ZK-Snark core against its specification.

The development shallowly embeds the TypeScript source:

* field arithmetic (`mod`, `mulMod`, `powMod`, `invMod`, `isQuadraticResidue`,
  `sqrtMod`, `extendedGCD`) from the field-math module;
* the Poseidon-shaped permutation hash from `crypto/poseidon.ts`;
* proof creation / verification from `proofs/zkSnark.ts`;
* the protocol orchestrator from the x402 protocol module
  (`createPrivateTransaction`, `verifyPrivateTransaction`, `computeMerkleRoot`);
* the `MerkleTree` class;
* the `PaymentCircuit` constraint engine from `circuits/paymentCircuit.ts`.

JavaScript `bigint` values are embedded as `Int` (`ℤ`); JS `%` on bigints is
truncated remainder (`Int.tmod`) and `/` is truncated division (`Int.tdiv`).
Loops whose counters are data-dependent are embedded with an explicit fuel
argument chosen large enough that the guard, not the fuel, terminates the
loop; lemmas carry the corresponding `…  ≤ fuel` side conditions.
-/

namespace FieldMath

/-- The fixed field prime of the source (`FIELD_SIZE`), the BN128 scalar-field
prime. -/
def FIELD_SIZE : ℕ := 21888242871839275222246405745257275088548364400416034343698204186575808495617

/-- `mod(a, m)`: JS truncated remainder, normalized into `[0, m)` by adding `m`
to a negative remainder. -/
def jsmod (a m : ℤ) : ℤ :=
  let result := Int.tmod a m
  if 0 ≤ result then result else result + m

/-- `mulMod(a, b, m)`: the source reduces both operands with the *default*
modulus `FIELD_SIZE` (the inner `mod(a)` calls do not receive `m`), then
reduces the product modulo `m`. -/
def mulMod (a b m : ℤ) : ℤ :=
  jsmod (jsmod a FIELD_SIZE * jsmod b FIELD_SIZE) m

/-- The `while (e > 0n)` loop of `powMod`, with fuel.  One step: if `e` is odd
multiply the accumulator by `b` mod `m`; square `b` mod `m`; halve `e`. -/
def powModLoop (m : ℤ) : ℕ → ℤ → ℤ → ℤ → ℤ
  | 0, _, result, _ => result
  | fuel + 1, e, result, b =>
    if 0 < e then
      powModLoop m fuel (Int.tdiv e 2)
        (if Int.tmod e 2 = 1 then jsmod (result * b) m else result)
        (jsmod (b * b) m)
    else result

/-- `powMod(base, exp, m)`: binary exponentiation; `exp = 0` returns `1`
directly, `exp = 1` returns `mod(base, m)`. -/
def powMod (base exp m : ℤ) : ℤ :=
  if exp = 0 then 1
  else if exp = 1 then jsmod base m
  else powModLoop m (exp.toNat + 1) exp 1 (jsmod base m)

/-- `extendedGCD(a, b)` (recursive, with fuel): returns `(gcd, x, y)` with
`x*a + y*b = gcd`. -/
def extendedGCDF : ℕ → ℤ → ℤ → ℤ × ℤ × ℤ
  | 0, a, _ => (a, 1, 0)
  | fuel + 1, a, b =>
    if b = 0 then (a, 1, 0)
    else
      let r := extendedGCDF fuel b (Int.tmod a b)
      (r.1, r.2.2, r.2.1 - Int.tdiv a b * r.2.2)

/-- `extendedGCD(a, b)`; the fuel `b.toNat + 1` dominates the number of
Euclidean steps because the second argument strictly decreases. -/
def extendedGCD (a b : ℤ) : ℤ × ℤ × ℤ :=
  extendedGCDF (b.toNat + 1) a b

/-- `invMod(a, m)`: extended Euclid on `(mod(a, m), m)`; throws
(`none`) when the gcd is not `1`, otherwise returns `mod(x, m)`. -/
def invMod (a m : ℤ) : Option ℤ :=
  let r := extendedGCD (jsmod a m) m
  if r.1 ≠ 1 then none else some (jsmod r.2.1 m)

/-- `isQuadraticResidue(a, p)`: true at `0`, else Euler's criterion
`a^((p-1)/2) ≡ 1`. -/
def isQuadraticResidue (a p : ℤ) : Bool :=
  if a = 0 then true
  else powMod a (Int.tdiv (p - 1) 2) p == 1

/-- `sqrtMod(a, p)`: throws `"Square root does not exist in field"` for a
non-residue; otherwise computes `a^((p+1)/4)` only when `p ≡ 3 (mod 4)`,
and throws `"General case not implemented"` for any other prime shape. -/
def sqrtMod (a p : ℤ) : Except String ℤ :=
  if ¬ isQuadraticResidue a p then
    .error "Square root does not exist in field"
  else if Int.tmod p 4 = 3 then
    .ok (powMod a (Int.tdiv (p + 1) 4) p)
  else
    .error "General case not implemented"

end FieldMath

/-! ### Proof infrastructure: Nat modular exponentiation and Pratt certificates

`npowMod` is not part of the source; it is a kernel-computable modular power
used only to discharge the Lucas primality hypotheses for `FIELD_SIZE`. -/

def npowModLoop (m : ℕ) : ℕ → ℕ → ℕ → ℕ → ℕ
  | 0, _, r, _ => r
  | fuel + 1, e, r, b =>
    if e = 0 then r
    else npowModLoop m fuel (e / 2) (if e % 2 = 1 then r * b % m else r) (b * b % m)

def npowMod (a e m : ℕ) : ℕ :=
  npowModLoop m (e + 1) e (1 % m) (a % m)

theorem npowModLoop_eq (m : ℕ) (hm : 0 < m) :
    ∀ fuel e r b, e ≤ fuel → r < m → npowModLoop m fuel e r b = r * b ^ e % m := by
  intro fuel
  induction fuel with
  | zero =>
    intro e r b he hr
    have he0 : e = 0 := by omega
    subst he0
    simp [npowModLoop, Nat.mod_eq_of_lt hr]
  | succ fuel ih =>
    intro e r b he hr
    by_cases he0 : e = 0
    · subst he0
      simp [npowModLoop, Nat.mod_eq_of_lt hr]
    · have hstep : e / 2 ≤ fuel := by omega
      have hr' : (if e % 2 = 1 then r * b % m else r) < m := by
        split
        · exact Nat.mod_lt _ hm
        · exact hr
      rw [npowModLoop, if_neg he0, ih (e / 2) _ _ hstep hr']
      rcases Nat.even_or_odd e with he2 | he2
      · obtain ⟨k, hk⟩ := he2
        have h2 : ¬ e % 2 = 1 := by omega
        have hdiv : e / 2 = k := by omega
        rw [if_neg h2, hdiv]
        have h3 : (b * b) ^ k = b ^ e := by rw [hk, pow_add, mul_pow]
        rw [← h3]
        exact ((Nat.mod_modEq (b * b) m).pow k).mul_left r
      · obtain ⟨k, hk⟩ := he2
        have h2 : e % 2 = 1 := by omega
        have hdiv : e / 2 = k := by omega
        rw [if_pos h2, hdiv]
        have h3 : r * b * (b * b) ^ k = r * b ^ e := by
          rw [hk, pow_succ, pow_mul, pow_two]; ring
        rw [← h3]
        exact (Nat.mod_modEq (r * b) m).mul ((Nat.mod_modEq (b * b) m).pow k)

theorem npowMod_eq (a e m : ℕ) (hm : 0 < m) : npowMod a e m = a ^ e % m := by
  rw [npowMod, npowModLoop_eq m hm _ e _ _ (Nat.le_succ e) (Nat.mod_lt 1 hm)]
  have h := (Nat.mod_modEq 1 m).mul ((Nat.mod_modEq a m).pow e)
  rw [one_mul] at h
  exact h

/-- Product of a factor list with multiplicities, `∏ q ^ e`. -/
def prodPows (l : List (ℕ × ℕ)) : ℕ :=
  l.foldr (fun x acc => x.1 ^ x.2 * acc) 1

theorem prime_dvd_prodPows {q : ℕ} (hq : q.Prime) :
    ∀ l : List (ℕ × ℕ), q ∣ prodPows l → ∃ x ∈ l, q ∣ x.1 := by
  intro l
  induction l with
  | nil =>
    intro h
    exact absurd (Nat.dvd_one.1 (by simpa [prodPows] using h)) hq.ne_one
  | cons x xs ih =>
    intro h
    rcases (Nat.Prime.dvd_mul hq).1 (by simpa [prodPows] using h) with h1 | h2
    · exact ⟨x, List.mem_cons_self x xs, hq.dvd_of_dvd_pow h1⟩
    · obtain ⟨y, hy, hqy⟩ := ih h2
      exact ⟨y, List.mem_cons_of_mem x hy, hqy⟩

/-- Pratt certificate step: `a` witnesses order `p - 1` in `(ZMod p)ˣ`, checked
against the factor list `l` of `p - 1` with kernel-computable modular powers. -/
theorem pratt_step (p a : ℕ) (l : List (ℕ × ℕ)) (hp : 2 ≤ p)
    (hfac : prodPows l = p - 1)
    (hqs : ∀ x ∈ l, Nat.Prime x.1)
    (ha : npowMod a (p - 1) p = 1)
    (hq : ∀ x ∈ l, npowMod a ((p - 1) / x.1) p ≠ 1) : p.Prime := by
  have hp0 : 0 < p := by omega
  have hcast : ∀ e : ℕ, ((a : ZMod p) ^ e = 1) ↔ npowMod a e p = 1 := by
    intro e
    have h1 : (a : ZMod p) ^ e = ((a ^ e : ℕ) : ZMod p) := by push_cast; ring
    have h2 : (1 : ZMod p) = ((1 : ℕ) : ZMod p) := by norm_cast
    rw [h1, h2, ZMod.natCast_eq_natCast_iff, Nat.ModEq,
      Nat.mod_eq_of_lt (show 1 < p by omega), ← npowMod_eq a e p hp0]
  apply lucas_primality p (a : ZMod p)
  · exact (hcast (p - 1)).2 ha
  · intro q hq' hdvd h1
    rw [← hfac] at hdvd
    obtain ⟨x, hx, hqx⟩ := prime_dvd_prodPows hq' l hdvd
    have hqeq : q = x.1 := (Nat.prime_dvd_prime_iff_eq hq' (hqs x hx)).1 hqx
    exact hq x hx (by rw [← hqeq]; exact (hcast ((p - 1) / q)).1 h1)

theorem prime_405928799 : Nat.Prime 405928799 := by
  apply pratt_step 405928799 22 [(2, 1), (11, 1), (3691, 1), (4999, 1)]
  · norm_num
  · decide
  · intro x hx
    fin_cases hx <;> norm_num
  · decide
  · decide

theorem prime_639533339 : Nat.Prime 639533339 := by
  apply pratt_step 639533339 2 [(2, 1), (229, 1), (853, 1), (1637, 1)]
  · norm_num
  · decide
  · intro x hx
    fin_cases hx <;> norm_num
  · decide
  · decide

theorem prime_12048837557 : Nat.Prime 12048837557 := by
  apply pratt_step 12048837557 2 [(2, 2), (7, 2), (661, 1), (93001, 1)]
  · norm_num
  · decide
  · intro x hx
    fin_cases hx <;> norm_num
  · decide
  · decide

theorem prime_5156902474397 : Nat.Prime 5156902474397 := by
  apply pratt_step 5156902474397 2 [(2, 2), (107, 1), (12048837557, 1)]
  · norm_num
  · decide
  · intro x hx
    fin_cases hx <;> first
      | exact prime_12048837557
      | norm_num
  · decide
  · decide

theorem prime_1670836401704629 : Nat.Prime 1670836401704629 := by
  apply pratt_step 1670836401704629 2 [(2, 2), (3, 4), (5156902474397, 1)]
  · norm_num
  · decide
  · intro x hx
    fin_cases hx <;> first
      | exact prime_5156902474397
      | norm_num
  · decide
  · decide

theorem prime_65865678001877903 : Nat.Prime 65865678001877903 := by
  apply pratt_step 65865678001877903 5
    [(2, 1), (83, 1), (379, 1), (1637, 1), (639533339, 1)]
  · norm_num
  · decide
  · intro x hx
    fin_cases hx <;> first
      | exact prime_639533339
      | norm_num
  · decide
  · decide

theorem prime_13818364434197438864469338081 :
    Nat.Prime 13818364434197438864469338081 := by
  apply pratt_step 13818364434197438864469338081 3
    [(2, 5), (5, 1), (823, 1), (1593227, 1), (65865678001877903, 1)]
  · norm_num
  · decide
  · intro x hx
    fin_cases hx <;> first
      | exact prime_65865678001877903
      | norm_num
  · decide
  · decide

theorem FIELD_SIZE_prime : Nat.Prime FieldMath.FIELD_SIZE := by
  apply pratt_step FieldMath.FIELD_SIZE 5
    [(2, 28), (3, 2), (13, 1), (29, 1), (983, 1), (11003, 1), (237073, 1),
     (405928799, 1), (1670836401704629, 1), (13818364434197438864469338081, 1)]
  · norm_num [FieldMath.FIELD_SIZE]
  · decide
  · intro x hx
    fin_cases hx <;> first
      | exact prime_405928799
      | exact prime_1670836401704629
      | exact prime_13818364434197438864469338081
      | norm_num
  · decide
  · decide

instance : Fact (Nat.Prime FieldMath.FIELD_SIZE) := ⟨FIELD_SIZE_prime⟩

/-! ### Field-math correctness lemmas -/

namespace FieldMath

theorem neg_tmod (a b : ℤ) : Int.tmod (-a) b = -Int.tmod a b := by
  rw [Int.tmod_def, Int.tmod_def, Int.neg_tdiv]
  ring

theorem tmod_emod (a m : ℤ) : Int.tmod a m % m = a % m := by
  rw [Int.tmod_def, sub_eq_add_neg, ← mul_neg, Int.add_mul_emod_self_left]

theorem neg_lt_tmod (a : ℤ) {m : ℤ} (hm : 0 < m) : -m < Int.tmod a m := by
  have h := Int.tmod_lt_of_pos (-a) hm
  rw [neg_tmod] at h
  omega

/-- `mod(a, m)` coincides with mathematical `emod` for a positive modulus. -/
theorem jsmod_eq_emod (a : ℤ) {m : ℤ} (hm : 0 < m) : jsmod a m = a % m := by
  have hub := Int.tmod_lt_of_pos a hm
  have hlb := neg_lt_tmod a hm
  have he := tmod_emod a m
  simp only [jsmod]
  split
  · next h => rw [← he, Int.emod_eq_of_lt h hub]
  · next h =>
    push_neg at h
    rw [← he]
    have h2 : Int.tmod a m % m = (Int.tmod a m + m) % m := by
      conv_rhs =>
        rw [show Int.tmod a m + m = Int.tmod a m + m * 1 by ring,
          Int.add_mul_emod_self_left]
    rw [h2, Int.emod_eq_of_lt (by omega) (by omega)]

theorem powModLoop_eq {m : ℤ} (hm : 1 < m) :
    ∀ (fuel n : ℕ) (r b : ℤ), n ≤ fuel → 0 ≤ r → r < m →
      powModLoop m fuel (n : ℤ) r b = r * b ^ n % m := by
  intro fuel
  induction fuel with
  | zero =>
    intro n r b hn hr0 hrm
    have h0 : n = 0 := by omega
    subst h0
    simp [powModLoop, Int.emod_eq_of_lt hr0 hrm]
  | succ fuel ih =>
    intro n r b hn hr0 hrm
    by_cases h0 : n = 0
    · subst h0
      simp [powModLoop, Int.emod_eq_of_lt hr0 hrm]
    · have hpos : (0 : ℤ) < (n : ℤ) := by exact_mod_cast Nat.pos_of_ne_zero h0
      have htd : Int.tdiv (n : ℤ) 2 = ((n / 2 : ℕ) : ℤ) := by
        rw [Int.tdiv_eq_ediv (by positivity) (by norm_num)]
        omega
      have htm : Int.tmod (n : ℤ) 2 = ((n % 2 : ℕ) : ℤ) := by
        rw [Int.tmod_eq_emod (by positivity) (by norm_num)]
        omega
      have hmm : (0 : ℤ) < m := by omega
      have hjr : jsmod (r * b) m = (r * b) % m := jsmod_eq_emod _ hmm
      have hjb : jsmod (b * b) m = (b * b) % m := jsmod_eq_emod _ hmm
      rw [powModLoop, if_pos hpos, htd, htm, hjr, hjb]
      have hrec := ih (n / 2) (if ((n % 2 : ℕ) : ℤ) = 1 then (r * b) % m else r)
        ((b * b) % m) (by omega) ?_ ?_
      · rw [hrec]
        have hbm : Int.ModEq m ((b * b) % m) (b * b) := Int.emod_emod (b * b) m
        have hbb : ((b * b) % m) ^ (n / 2) ≡ (b * b) ^ (n / 2) [ZMOD m] :=
          hbm.pow (n / 2)
        by_cases hpar : n % 2 = 1
        · rw [hpar, Nat.cast_one, if_pos rfl]
          have hrb : Int.ModEq m ((r * b) % m) (r * b) := Int.emod_emod (r * b) m
          have hcomb : (r * b) % m * ((b * b) % m) ^ (n / 2) % m
              = r * b * (b * b) ^ (n / 2) % m := hrb.mul hbb
          rw [hcomb]
          congr 1
          obtain ⟨k, hk⟩ : ∃ k, n = 2 * k + 1 := ⟨n / 2, by omega⟩
          subst hk
          rw [show (2 * k + 1) / 2 = k by omega, pow_succ, pow_mul, pow_two]
          ring
        · have hpar0 : n % 2 = 0 := by omega
          rw [hpar0, Nat.cast_zero, if_neg (by norm_num)]
          have hcomb : r * ((b * b) % m) ^ (n / 2) % m
              = r * (b * b) ^ (n / 2) % m := (Int.ModEq.refl r).mul hbb
          rw [hcomb]
          congr 1
          obtain ⟨k, hk⟩ : ∃ k, n = 2 * k := ⟨n / 2, by omega⟩
          subst hk
          rw [show 2 * k / 2 = k by omega, pow_mul, pow_two]
      · split
        · exact Int.emod_nonneg _ (by omega)
        · exact hr0
      · split
        · exact Int.emod_lt_of_pos _ hmm
        · exact hrm

theorem powMod_eq (a : ℤ) (n : ℕ) {m : ℤ} (hm : 1 < m) :
    powMod a (n : ℤ) m = a ^ n % m := by
  unfold powMod
  by_cases h0 : n = 0
  · subst h0
    rw [Nat.cast_zero, if_pos rfl, pow_zero, Int.emod_eq_of_lt (by norm_num) hm]
  · by_cases h1 : n = 1
    · subst h1
      rw [Nat.cast_one, if_neg (by norm_num), if_pos rfl,
        jsmod_eq_emod _ (by omega), pow_one]
    · rw [if_neg (by exact_mod_cast h0), if_neg (by exact_mod_cast h1),
        Int.toNat_natCast, jsmod_eq_emod a (by omega),
        powModLoop_eq hm (n + 1) n 1 _ (Nat.le_succ n) (by norm_num) (by omega),
        one_mul]
      have hme : Int.ModEq m (a % m) a := Int.emod_emod a m
      exact hme.pow n

theorem extendedGCDF_eq :
    ∀ (fuel a b : ℕ), b < fuel →
      ∃ x y : ℤ, extendedGCDF fuel (a : ℤ) (b : ℤ) = ((Nat.gcd a b : ℤ), x, y)
        ∧ x * a + y * b = Nat.gcd a b := by
  intro fuel
  induction fuel with
  | zero => intro a b h; omega
  | succ fuel ih =>
    intro a b hb
    by_cases hb0 : b = 0
    · subst hb0
      exact ⟨1, 0, by simp [extendedGCDF], by simp⟩
    · have hbpos : 0 < b := Nat.pos_of_ne_zero hb0
      have hmod : Int.tmod (a : ℤ) (b : ℤ) = ((a % b : ℕ) : ℤ) := by
        rw [Int.tmod_eq_emod (by positivity) (by positivity)]
        exact_mod_cast rfl
      have hdiv : Int.tdiv (a : ℤ) (b : ℤ) = ((a / b : ℕ) : ℤ) := by
        rw [Int.tdiv_eq_ediv (by positivity) (by positivity)]
        exact_mod_cast rfl
      obtain ⟨x, y, heq, hbez⟩ := ih b (a % b) (by
        have := Nat.mod_lt a hbpos
        omega)
      have hgcd : Nat.gcd b (a % b) = Nat.gcd a b :=
        (Nat.gcd_comm b (a % b)).trans ((Nat.gcd_rec b a).symm.trans (Nat.gcd_comm b a))
      have hdm : (b : ℤ) * ((a / b : ℕ) : ℤ) + ((a % b : ℕ) : ℤ) = (a : ℤ) := by
        have h := congrArg (fun t : ℕ => (t : ℤ)) (Nat.div_add_mod a b)
        simpa only [Nat.cast_add, Nat.cast_mul] using h
      have hab : ((a % b : ℕ) : ℤ) = (a : ℤ) - (b : ℤ) * ((a / b : ℕ) : ℤ) := by
        linarith
      refine ⟨y, x - Int.tdiv (a : ℤ) (b : ℤ) * y, ?_, ?_⟩
      · rw [extendedGCDF, if_neg (by exact_mod_cast hb0), hmod, heq]
        have : ((Nat.gcd b (a % b) : ℕ) : ℤ) = ((Nat.gcd a b : ℕ) : ℤ) := by
          exact_mod_cast congrArg (Nat.cast : ℕ → ℤ) hgcd
        rw [this]
      · rw [hdiv]
        have hbez' : x * (b : ℤ) + y * ((a % b : ℕ) : ℤ) = ((Nat.gcd a b : ℕ) : ℤ) := by
          rw [hbez]
          exact_mod_cast congrArg (Nat.cast : ℕ → ℤ) hgcd
        linear_combination hbez' - y * hab

end FieldMath

open FieldMath in
/-- C7: for every `a` with `1 ≤ a < p` (`p` the fixed field prime),
`mulMod(a, invMod(a)) = 1`; and `invMod(0)` fails with the no-modular-inverse
error, because `gcd(0, p) = p ≠ 1`. -/
theorem c7_invMod_inverse :
    (∀ a : ℤ, 1 ≤ a → a < (FIELD_SIZE : ℤ) →
      ∃ v, invMod a (FIELD_SIZE : ℤ) = some v ∧ mulMod a v (FIELD_SIZE : ℤ) = 1)
    ∧ invMod 0 (FIELD_SIZE : ℤ) = none := by
  constructor
  · intro a ha1 ha2
    have hm : (1 : ℤ) < (FIELD_SIZE : ℤ) := by
      exact_mod_cast FIELD_SIZE_prime.one_lt
    have hja : jsmod a (FIELD_SIZE : ℤ) = a := by
      rw [jsmod_eq_emod a (by omega), Int.emod_eq_of_lt (by omega) ha2]
    have hacast : ((a.toNat : ℕ) : ℤ) = a := Int.toNat_of_nonneg (by omega)
    obtain ⟨x, y, heq, hbez⟩ :=
      extendedGCDF_eq (FIELD_SIZE + 1) a.toNat FIELD_SIZE (by omega)
    have hgcd : Nat.gcd a.toNat FIELD_SIZE = 1 := by
      have hndvd : ¬ FIELD_SIZE ∣ a.toNat := by
        intro hdvd
        have h1 : 0 < a.toNat := by omega
        have h2 : a.toNat < FIELD_SIZE := by omega
        have := Nat.le_of_dvd h1 hdvd
        omega
      have := (Nat.Prime.coprime_iff_not_dvd FIELD_SIZE_prime).2 hndvd
      exact Nat.Coprime.gcd_eq_one (Nat.coprime_comm.1 this)
    rw [hgcd, Nat.cast_one] at heq hbez
    rw [hacast] at heq hbez
    have hegcd : extendedGCD a (FIELD_SIZE : ℤ) = (1, x, y) := by
      rw [extendedGCD]
      have hfuel : ((FIELD_SIZE : ℤ)).toNat + 1 = FIELD_SIZE + 1 := by
        simp
      rw [hfuel]
      exact heq
    refine ⟨jsmod x (FIELD_SIZE : ℤ), ?_, ?_⟩
    · simp only [invMod, hja, hegcd]
      norm_num
    · have hax : a * x % (FIELD_SIZE : ℤ) = 1 := by
        have h1 : a * x = 1 - y * (FIELD_SIZE : ℤ) := by linarith
        rw [h1, show (1 : ℤ) - y * (FIELD_SIZE : ℤ)
            = 1 + (FIELD_SIZE : ℤ) * (-y) by ring,
          Int.add_mul_emod_self_left, Int.emod_eq_of_lt (by norm_num) hm]
      have hxm : jsmod x (FIELD_SIZE : ℤ) = x % (FIELD_SIZE : ℤ) :=
        jsmod_eq_emod x (by omega)
      have hme : Int.ModEq (FIELD_SIZE : ℤ) (x % (FIELD_SIZE : ℤ)) x :=
        Int.emod_emod x (FIELD_SIZE : ℤ)
      have hstep : a * (x % (FIELD_SIZE : ℤ)) % (FIELD_SIZE : ℤ)
          = a * x % (FIELD_SIZE : ℤ) :=
        (Int.ModEq.refl a).mul hme
      simp only [mulMod, hja, hxm]
      rw [jsmod_eq_emod (x % (FIELD_SIZE : ℤ)) (by omega),
        Int.emod_emod, jsmod_eq_emod _ (by omega), hstep, hax]
  · decide

open FieldMath in
/-- C8: Fermat's little theorem for the embedded exponentiation: for every `a`
with `1 ≤ a < p`, `powMod(a, p - 1, p) = 1`. -/
theorem c8_powMod_fermat (a : ℤ) (ha1 : 1 ≤ a) (ha2 : a < (FIELD_SIZE : ℤ)) :
    powMod a ((FIELD_SIZE : ℤ) - 1) (FIELD_SIZE : ℤ) = 1 := by
  have hm : (1 : ℤ) < (FIELD_SIZE : ℤ) := by
    exact_mod_cast FIELD_SIZE_prime.one_lt
  have hcast : (FIELD_SIZE : ℤ) - 1 = ((FIELD_SIZE - 1 : ℕ) : ℤ) := by
    have h1 : 1 ≤ FIELD_SIZE := FIELD_SIZE_prime.one_lt.le
    push_cast [h1]
    ring
  rw [hcast, powMod_eq a (FIELD_SIZE - 1) hm]
  have hz : ((a : ZMod FIELD_SIZE)) ≠ 0 := by
    rw [Ne, ZMod.intCast_zmod_eq_zero_iff_dvd]
    intro hdvd
    have := Int.le_of_dvd (by omega) hdvd
    omega
  have hf := ZMod.pow_card_sub_one_eq_one hz
  have hcc : ((a ^ (FIELD_SIZE - 1) : ℤ) : ZMod FIELD_SIZE)
      = ((1 : ℤ) : ZMod FIELD_SIZE) := by
    push_cast
    exact hf
  rw [ZMod.intCast_eq_intCast_iff] at hcc
  calc a ^ (FIELD_SIZE - 1) % (FIELD_SIZE : ℤ)
      = 1 % (FIELD_SIZE : ℤ) := hcc
    _ = 1 := Int.emod_eq_of_lt (by norm_num) hm

theorem c8_powMod_fermat_witness :
    (1 : ℤ) ≤ 2 ∧ (2 : ℤ) < (FieldMath.FIELD_SIZE : ℤ) ∧
      FieldMath.powMod 2 ((FieldMath.FIELD_SIZE : ℤ) - 1) (FieldMath.FIELD_SIZE : ℤ) = 1 :=
  ⟨by norm_num, by decide, c8_powMod_fermat 2 (by norm_num) (by decide)⟩

theorem c7_invMod_inverse_witness :
    ((1 : ℤ) ≤ 5 ∧ (5 : ℤ) < (FieldMath.FIELD_SIZE : ℤ) ∧
      ∃ v, FieldMath.invMod 5 (FieldMath.FIELD_SIZE : ℤ) = some v ∧
        FieldMath.mulMod 5 v (FieldMath.FIELD_SIZE : ℤ) = 1)
    ∧ FieldMath.invMod 0 (FieldMath.FIELD_SIZE : ℤ) = none :=
  ⟨⟨by norm_num, by decide, c7_invMod_inverse.1 5 (by norm_num) (by decide)⟩,
    c7_invMod_inverse.2⟩

open FieldMath in
/-- C10: with the default modulus `sqrtMod` never returns a value: the fixed
prime satisfies `p ≡ 1 (mod 4)`, so every call throws — the no-square-root
error when `a` is not a quadratic residue (that check runs first), and the
not-implemented error otherwise. -/
theorem c10_sqrtMod_always_throws :
    FieldMath.FIELD_SIZE % 4 = 1 ∧
    ∀ a : ℤ, 0 ≤ a → a < (FIELD_SIZE : ℤ) →
      sqrtMod a (FIELD_SIZE : ℤ) = Except.error
        (if isQuadraticResidue a (FIELD_SIZE : ℤ) then "General case not implemented"
         else "Square root does not exist in field") := by
  constructor
  · decide
  · intro a h0 h1
    have hshape : Int.tmod (FIELD_SIZE : ℤ) 4 ≠ 3 := by decide
    by_cases hqr : isQuadraticResidue a (FIELD_SIZE : ℤ)
    · simp only [sqrtMod]
      rw [if_neg (by simp [hqr]), if_neg hshape, if_pos hqr]
    · simp only [sqrtMod]
      rw [if_pos (by simp [hqr]), if_neg hqr]

theorem c10_sqrtMod_always_throws_witness :
    FieldMath.FIELD_SIZE % 4 = 1 ∧
    FieldMath.sqrtMod 0 (FieldMath.FIELD_SIZE : ℤ) = Except.error
      (if FieldMath.isQuadraticResidue 0 (FieldMath.FIELD_SIZE : ℤ)
       then "General case not implemented"
       else "Square root does not exist in field") :=
  ⟨c10_sqrtMod_always_throws.1,
    c10_sqrtMod_always_throws.2 0 le_rfl (by decide)⟩

/-! ### PermutationHash (`crypto/poseidon.ts`) -/

namespace Poseidon

/-- `poseidon.ts` declares its own `FIELD_SIZE` with the same value. -/
def P : ℤ := (FieldMath.FIELD_SIZE : ℤ)

/-- The file-local `mod` of `poseidon.ts` (same body as the field-math one). -/
def pmod (a : ℤ) : ℤ := FieldMath.jsmod a P

/-- `pow5(x) = mod(mod(x*x) * mod(x*x) * ... )` exactly as in the source:
`x2 = mod(x*x)`, `x4 = mod(x2*x2)`, result `mod(x4*x)`. -/
def pow5 (x : ℤ) : ℤ :=
  let x2 := pmod (x * x)
  let x4 := pmod (x2 * x2)
  pmod (x4 * x)

/-- Round constants: `C[i] = (i+1) * 0x30644e72e131a029b85045b68181585d`
(not reduced mod p at construction). -/
def rc (i : ℕ) : ℤ := (i + 1 : ℕ) * (0x30644e72e131a029b85045b68181585d : ℤ)

/-- Mixing matrix `M[i][j] = (i+1) * (j+1)`. -/
def mixM (i j : ℕ) : ℤ := ((i + 1) * (j + 1) : ℕ)

/-- `ark`: add the round constants to each of the `t = 6` state entries. -/
def ark (state : List ℤ) (round : ℕ) : List ℤ :=
  (List.range 6).map fun i => pmod (state.getD i 0 + rc (round * 6 + i))

/-- `sbox`: fifth-power S-box on every entry in a full round, on entry 0 only
in a partial round. -/
def sbox (state : List ℤ) (fullRound : Bool) : List ℤ :=
  if fullRound then state.map pow5
  else
    match state with
    | [] => []
    | s0 :: rest => pow5 s0 :: rest

/-- `mix`: matrix multiplication with mod-accumulation exactly as in the
nested source loops. -/
def mix (state : List ℤ) : List ℤ :=
  (List.range 6).map fun i =>
    (List.range 6).foldl (fun acc j => pmod (acc + pmod (mixM i j * state.getD j 0))) 0

/-- The absorption loop: state starts as six zeroes; positions `1..5` receive
`mod(inputs[i])` for `i < min(inputs.length, t - 1)` and stay `0` otherwise. -/
def initState (inputs : List ℤ) : List ℤ :=
  0 :: (List.range 5).map fun i =>
    if i < inputs.length then pmod (inputs.getD i 0) else 0

/-- `PoseidonHash.hash`: 4 full rounds, 57 partial rounds, 4 full rounds
(`nRoundsF = 8` split in half, `nRoundsP = 57`), output `state[0]`. -/
def hash (inputs : List ℤ) : ℤ :=
  let s0 := initState inputs
  let s1 := (List.range 4).foldl (fun s r => mix (sbox (ark s r) true)) s0
  let s2 := (List.range 57).foldl (fun s r => mix (sbox (ark s (4 + r)) false)) s1
  let s3 := (List.range 4).foldl (fun s r => mix (sbox (ark s (4 + 57 + r)) true)) s2
  s3.getD 0 0

theorem initState_eq (l : List ℤ) :
    initState l = 0 :: (List.range 5).map fun i => pmod (l.getD i 0) := by
  rw [initState]
  congr 1
  apply List.map_congr_left
  intro i _
  by_cases hi : i < l.length
  · rw [if_pos hi]
  · rw [if_neg hi, List.getD_eq_default _ _ (by omega)]
    decide

end Poseidon

/-- The module-level `poseidonHash` export (and the function returned by
`buildPoseidon`): both call `PoseidonHash.hash` on a lazily-created singleton
whose behavior is the pure `hash`. -/
def poseidonHash (inputs : List ℤ) : ℤ := Poseidon.hash inputs

/-- C9: `poseidonHash` is a pure deterministic function of at most the first
`t - 1 = 5` inputs reduced mod p: if the first five entries (taking `0` when
absent) agree modulo p, the hashes agree; in particular inputs beyond the
fifth are ignored, non-field values are reduced mod p, and the call never
fails (the embedding is total). -/
theorem c9_poseidonHash_first_five (xs ys : List ℤ)
    (h : ∀ i, i < 5 →
      FieldMath.jsmod (xs.getD i 0) Poseidon.P = FieldMath.jsmod (ys.getD i 0) Poseidon.P) :
    poseidonHash xs = poseidonHash ys := by
  have h0 : Poseidon.initState xs = Poseidon.initState ys := by
    rw [Poseidon.initState_eq, Poseidon.initState_eq]
    congr 1
    apply List.map_congr_left
    intro i hi
    exact h i (List.mem_range.mp hi)
  show Poseidon.hash xs = Poseidon.hash ys
  unfold Poseidon.hash
  rw [h0]

theorem c9_poseidonHash_first_five_witness :
    (∀ i, i < 5 →
      FieldMath.jsmod ((([1, 2, 3, 4, 5, 999] : List ℤ).getD i 0)) Poseidon.P
        = FieldMath.jsmod ((([1 + (FieldMath.FIELD_SIZE : ℤ), 2, 3, 4, 5] : List ℤ).getD i 0)) Poseidon.P)
    ∧ poseidonHash [1, 2, 3, 4, 5, 999]
        = poseidonHash [1 + (FieldMath.FIELD_SIZE : ℤ), 2, 3, 4, 5] :=
  ⟨by decide, c9_poseidonHash_first_five _ _ (by decide)⟩

/-! ### ZK-SNARK stand-in (`proofs/zkSnark.ts`)

JSON string fields that the verifier feeds to `BigInt(...)` are embedded as
`Option ℤ`: `some n` is a numeric string with value `n` (identifying each
numeric string with its bigint value), `none` is a value on which `BigInt`
throws. -/

namespace ZKSnark

abbrev JVal := Option ℤ

/-- The `Proof` object shape of `zkSnark.ts` (protocol/curve tags plus the
three point-shaped string arrays). -/
structure ProofData where
  pi_a : List JVal
  pi_b : List (List JVal)
  pi_c : List JVal
  protocol : String
  curve : String
deriving DecidableEq

/-- `ZKSnarkProver.verifyProof(proofStr, publicInputs)`.  `parsed` is the
JSON parse of `proofStr`: `none` when `JSON.parse` throws or the parsed value
lacks the accessed fields (those accesses throw inside the same `try`, giving
the same `false` result).  A `none` entry anywhere `BigInt` is applied throws
and is caught, also yielding `false`. -/
def verifyProof (parsed : Option ProofData) (publicInputs : List JVal) : Bool :=
  match parsed with
  | none => false
  | some proof =>
    if proof.protocol ≠ "groth16" then false
    else
      let isValidStructure :=
        proof.pi_a.length == 3 && proof.pi_b.length == 3 && proof.pi_c.length == 3
      if !isValidStructure then false
      else
        match proof.pi_a.getD 0 none, proof.pi_a.getD 1 none, proof.pi_c.getD 1 none with
        | some a0, some a1, some c1 =>
          let hashesMatch := poseidonHash [a0, a1] == c1
          isValidStructure && hashesMatch &&
            publicInputs.all fun inp =>
              match inp with
              | some n => decide (0 < n)
              | none => false
        | _, _, _ => false

/-- `ZKSnarkProver.createProof(witness)`: assembles the proof object;
`witness[i]?.toString() || '0'` becomes `getD`, and the Poseidon call on
`[witness[1], witness[2]]` throws (`none`) when either entry is absent. -/
def createProof (w : List ℤ) : Option ProofData :=
  match w[1]?, w[2]? with
  | some w1, some w2 =>
    some
      { pi_a := [some (w.getD 1 0), some (w.getD 2 0), some 1]
        pi_b := [[some (w.getD 3 0), some (w.getD 4 0)],
                 [some (w.getD 5 0), some (w.getD 6 0)],
                 [some 1, some 0]]
        pi_c := [some (w.getD 0 1), some (poseidonHash [w1, w2]), some 1]
        protocol := "groth16"
        curve := "bn128" }
  | _, _ => none

end ZKSnark

/-! ### Protocol orchestrator (`X402Protocol`) -/

namespace X402

/-- The external collaborators of the orchestrator (spec §6): the keccak-based
packings behind nullifier/commitment/secret-hash derivation, and the
authenticated encryption.  Addresses and 32-byte hashes are identified with
their bigint values (they are canonical hex strings, always non-empty and
always accepted by `BigInt`); hash outputs are naturals below `2^256`. -/
structure ExtCollab where
  nullifierHash : ℕ → String → ℕ
  commitmentHash : ℕ → ℤ → ℕ → ℕ
  secretHash : String → ℕ
  encryptAmount : ℤ → String → String

def generateNullifier (ext : ExtCollab) (address : ℕ) (secret : String) : ℕ :=
  ext.nullifierHash address secret

def generateCommitment (ext : ExtCollab) (recipient : ℕ) (amount : ℤ)
    (nullifier : ℕ) : ℕ :=
  ext.commitmentHash recipient amount nullifier

/-- The proof-input bag `createPrivateTransaction` passes to `generateProof`. -/
structure TxInput where
  fromA : ℕ
  toA : ℕ
  amount : ℤ
  nullifier : ℕ
  commitment : ℕ
  secret : String

/-- `ZKSnarkProver.calculateWitness` for the transaction input bag.  Each
push is guarded by JS truthiness of the corresponding string: the amount
(decimal string of a bigint), nullifier/commitment (32-byte hex) and from/to
(address hex) strings are always non-empty hence truthy; only the secret's
guard can fail, when the secret is the empty string. -/
def calculateWitness (ext : ExtCollab) (inp : TxInput) : List ℤ :=
  [1, inp.amount, (inp.nullifier : ℤ), (inp.commitment : ℤ)]
    ++ (if inp.secret.isEmpty then [] else [(ext.secretHash inp.secret : ℤ)])
    ++ [(inp.fromA : ℤ), (inp.toA : ℤ)]

/-- `generateProof(inputs)` = serialize (identity in the embedding) the proof
created from the calculated witness. -/
def generateProofTx (ext : ExtCollab) (inp : TxInput) : Option ZKSnark.ProofData :=
  ZKSnark.createProof (calculateWitness ext inp)

structure PrivateTransaction where
  encryptedAmount : String
  proof : ZKSnark.ProofData
  nullifier : ℕ
  commitment : ℕ
  publicInputs : List ZKSnark.JVal
deriving DecidableEq

/-- `X402Protocol.createPrivateTransaction(from, to, amount, secret)`. -/
def createPrivateTransaction (ext : ExtCollab) (fromA toA : ℕ) (amount : ℤ)
    (secret : String) : Option PrivateTransaction :=
  let nullifier := generateNullifier ext fromA secret
  let commitment := generateCommitment ext toA amount nullifier
  let encryptedAmount := ext.encryptAmount amount secret
  (generateProofTx ext ⟨fromA, toA, amount, nullifier, commitment, secret⟩).map
    fun pr =>
      { encryptedAmount := encryptedAmount
        proof := pr
        nullifier := nullifier
        commitment := commitment
        publicInputs := [some (nullifier : ℤ), some (commitment : ℤ)] }

/-- `X402Protocol.verifyPrivateTransaction(tx)`: `verifyProof` on the
serialized proof and public inputs, with any thrown error caught and turned
into `false` (the embedded `verifyProof` is already total). -/
def verifyPrivateTransaction (tx : PrivateTransaction) : Bool :=
  ZKSnark.verifyProof (some tx.proof) tx.publicInputs

end X402

/-! ### C1: characterization of `verifyProof` / `verifyPrivateTransaction` -/

/-- Modelled from the claim's wording (a spec-following definition, for
comparison with the source-derived `ZKSnark.verifyProof`): the claimed
acceptance condition, including the full `3×2` arity requirement on `pi_b`. -/
def verifyClaimedC1 (parsed : Option ZKSnark.ProofData)
    (pis : List ZKSnark.JVal) : Bool :=
  match parsed with
  | none => false
  | some p =>
    (p.protocol == "groth16")
    && (p.pi_a.length == 3)
    && ((p.pi_b.length == 3) && p.pi_b.all fun row => row.length == 2)
    && (p.pi_c.length == 3)
    && (match p.pi_a.getD 0 none, p.pi_a.getD 1 none, p.pi_c.getD 1 none with
        | some a0, some a1, some c1 => poseidonHash [a0, a1] == c1
        | _, _, _ => false)
    && pis.all fun inp =>
        match inp with
        | some n => decide (0 < n)
        | none => false

/-- C1 (amended): `verifyProof` returns true iff the parse succeeded, the
protocol tag is `"groth16"`, the *outer* lengths of `pi_a`/`pi_b`/`pi_c` are
3 (the inner `pi_b` arities are not checked — this is the amendment), the
entries `pi_a[0]`, `pi_a[1]`, `pi_c[1]` parse as integers with the recomputed
permutation hash over `pi_a[0..1]` equal to `pi_c[1]`, and every public input
parses as a strictly positive integer; any parse failure yields `false`
rather than a thrown error, and `verifyPrivateTransaction` is exactly
`verifyProof` on the transaction's proof and public inputs. -/
theorem c1_verifyProof_characterization :
    (∀ pis, ZKSnark.verifyProof none pis = false)
    ∧ (∀ p pis, ZKSnark.verifyProof (some p) pis = true ↔
        (p.protocol = "groth16" ∧ p.pi_a.length = 3 ∧ p.pi_b.length = 3
          ∧ p.pi_c.length = 3
          ∧ (∃ a0 a1 c1, p.pi_a.getD 0 none = some a0
              ∧ p.pi_a.getD 1 none = some a1 ∧ p.pi_c.getD 1 none = some c1
              ∧ poseidonHash [a0, a1] = c1)
          ∧ ∀ inp ∈ pis, ∃ n, inp = some n ∧ 0 < n))
    ∧ ∀ tx, X402.verifyPrivateTransaction tx
        = ZKSnark.verifyProof (some tx.proof) tx.publicInputs := by
  refine ⟨fun pis => rfl, ?_, fun tx => rfl⟩
  intro p pis
  constructor
  · intro hv
    simp only [ZKSnark.verifyProof] at hv
    by_cases hproto : p.protocol = "groth16"
    case neg =>
      rw [if_pos (by simp [hproto])] at hv
      exact absurd hv (by simp)
    case pos =>
      rw [if_neg (by simp [hproto])] at hv
      by_cases hstruct :
        (p.pi_a.length == 3 && p.pi_b.length == 3 && p.pi_c.length == 3) = true
      case neg =>
        rw [if_pos (by simp [hstruct])] at hv
        exact absurd hv (by simp)
      case pos =>
        rw [if_neg (by simp [hstruct])] at hv
        have hs := hstruct
        simp only [Bool.and_eq_true, beq_iff_eq] at hs
        obtain ⟨⟨hla, hlb⟩, hlc⟩ := hs
        split at hv
        · next a0 a1 c1 e0 e1 e2 =>
          simp only [Bool.and_eq_true, beq_iff_eq, List.all_eq_true] at hv
          refine ⟨hproto, hla, hlb, hlc, ⟨a0, a1, c1, e0, e1, e2, hv.1.2⟩, ?_⟩
          intro inp hin
          have h := hv.2 inp hin
          cases inp with
          | some n =>
            simp only [decide_eq_true_eq] at h
            exact ⟨n, rfl, h⟩
          | none => exact absurd h (by simp)
        · next => exact absurd hv (by simp)
  · rintro ⟨hproto, ha, hb, hc, ⟨a0, a1, c1, e0, e1, e2, hhash⟩, hpis⟩
    simp only [ZKSnark.verifyProof]
    rw [if_neg (by simp [hproto])]
    rw [if_neg (by simp [ha, hb, hc])]
    rw [e0, e1, e2]
    simp only [Bool.and_eq_true, beq_iff_eq, List.all_eq_true]
    refine ⟨⟨⟨⟨ha, hb⟩, hc⟩, hhash⟩, ?_⟩
    intro inp hin
    obtain ⟨n, rfl, hn⟩ := hpis inp hin
    simpa using hn

/-- C1 counterexample: a proof whose `pi_b` rows are empty (arities `3×0`,
not the claimed `3×2`) still verifies — the code checks only the outer length
of `pi_b` — so the claimed "if and only if" characterization (which requires
arity `3×2`) is false at this input. -/
theorem c1_counterexample :
    ZKSnark.verifyProof
      (some { pi_a := [some 1, some 2, some 1], pi_b := [[], [], []],
              pi_c := [some 1, some (poseidonHash [1, 2]), some 1],
              protocol := "groth16", curve := "bn128" }) [some 1] = true
    ∧ verifyClaimedC1
      (some { pi_a := [some 1, some 2, some 1], pi_b := [[], [], []],
              pi_c := [some 1, some (poseidonHash [1, 2]), some 1],
              protocol := "groth16", curve := "bn128" }) [some 1] = false := by
  constructor
  · simp [ZKSnark.verifyProof]
  · simp [verifyClaimedC1]

/-! ### C2: end-to-end create / verify round trip -/

/-- Replacing `pi_c[1]` of a serialized proof by (the value of) another
numeric string — the tampering step of the claim. -/
def setPiC1 (p : ZKSnark.ProofData) (v : ℤ) : ZKSnark.ProofData :=
  { p with pi_c := p.pi_c.set 1 (some v) }

/-- C2: for every from/to address, amount and secret,
`verifyPrivateTransaction (createPrivateTransaction ...)` returns true — the
produced proof has protocol `"groth16"`, arities `3`/`3×2`/`3`, `pi_c[1]`
equal to the permutation hash of `pi_a[0..1]` (= amount and nullifier), and
`publicInputs = [nullifier, commitment]` — and replacing `pi_c[1]` by any
different numeric value makes verification return false.  The two positivity
hypotheses state that the keccak-derived nullifier and commitment are nonzero
(true of the external collaborator except with probability `2^-256`, and not
derivable for the abstracted hash). -/
theorem c2_create_verify_roundtrip (ext : X402.ExtCollab) (fromA toA : ℕ)
    (amount : ℤ) (secret : String)
    (hn : 0 < X402.generateNullifier ext fromA secret)
    (hc : 0 < X402.generateCommitment ext toA amount
      (X402.generateNullifier ext fromA secret)) :
    ∃ tx, X402.createPrivateTransaction ext fromA toA amount secret = some tx
      ∧ X402.verifyPrivateTransaction tx = true
      ∧ tx.proof.protocol = "groth16"
      ∧ tx.proof.pi_a.length = 3
      ∧ tx.proof.pi_b.length = 3
      ∧ (∀ row ∈ tx.proof.pi_b, row.length = 2)
      ∧ tx.proof.pi_c.length = 3
      ∧ tx.proof.pi_c.getD 1 none = some (poseidonHash
          [amount, (X402.generateNullifier ext fromA secret : ℤ)])
      ∧ tx.publicInputs = [some (X402.generateNullifier ext fromA secret : ℤ),
          some (X402.generateCommitment ext toA amount
            (X402.generateNullifier ext fromA secret) : ℤ)]
      ∧ ∀ v : ℤ, v ≠ poseidonHash
            [amount, (X402.generateNullifier ext fromA secret : ℤ)] →
          X402.verifyPrivateTransaction { tx with proof := setPiC1 tx.proof v }
            = false := by
  have hnz : (0 : ℤ) < (X402.generateNullifier ext fromA secret : ℤ) := by
    exact_mod_cast hn
  have hcz : (0 : ℤ) < (X402.generateCommitment ext toA amount
      (X402.generateNullifier ext fromA secret) : ℤ) := by
    exact_mod_cast hc
  cases hsec : secret.isEmpty
  case true =>
    refine ⟨{ encryptedAmount := ext.encryptAmount amount secret
              proof :=
                { pi_a := [some amount,
                    some (X402.generateNullifier ext fromA secret : ℤ), some 1]
                  pi_b := [[some (X402.generateCommitment ext toA amount
                      (X402.generateNullifier ext fromA secret) : ℤ),
                      some (fromA : ℤ)],
                    [some (toA : ℤ), some 0],
                    [some 1, some 0]]
                  pi_c := [some 1, some (poseidonHash
                    [amount, (X402.generateNullifier ext fromA secret : ℤ)]),
                    some 1]
                  protocol := "groth16"
                  curve := "bn128" }
              nullifier := X402.generateNullifier ext fromA secret
              commitment := X402.generateCommitment ext toA amount
                (X402.generateNullifier ext fromA secret)
              publicInputs := [some (X402.generateNullifier ext fromA secret : ℤ),
                some (X402.generateCommitment ext toA amount
                  (X402.generateNullifier ext fromA secret) : ℤ)] },
      ?_, ?_, rfl, rfl, rfl, ?_, rfl, rfl, rfl, ?_⟩
    · simp [X402.createPrivateTransaction, X402.generateProofTx,
        X402.calculateWitness, ZKSnark.createProof, hsec]
    · simp [X402.verifyPrivateTransaction, ZKSnark.verifyProof, hnz, hcz]
    · intro row hr
      fin_cases hr <;> rfl
    · intro v hv
      simp [X402.verifyPrivateTransaction, ZKSnark.verifyProof, setPiC1,
        beq_iff_eq, hv.symm]
  case false =>
    refine ⟨{ encryptedAmount := ext.encryptAmount amount secret
              proof :=
                { pi_a := [some amount,
                    some (X402.generateNullifier ext fromA secret : ℤ), some 1]
                  pi_b := [[some (X402.generateCommitment ext toA amount
                      (X402.generateNullifier ext fromA secret) : ℤ),
                      some (ext.secretHash secret : ℤ)],
                    [some (fromA : ℤ), some (toA : ℤ)],
                    [some 1, some 0]]
                  pi_c := [some 1, some (poseidonHash
                    [amount, (X402.generateNullifier ext fromA secret : ℤ)]),
                    some 1]
                  protocol := "groth16"
                  curve := "bn128" }
              nullifier := X402.generateNullifier ext fromA secret
              commitment := X402.generateCommitment ext toA amount
                (X402.generateNullifier ext fromA secret)
              publicInputs := [some (X402.generateNullifier ext fromA secret : ℤ),
                some (X402.generateCommitment ext toA amount
                  (X402.generateNullifier ext fromA secret) : ℤ)] },
      ?_, ?_, rfl, rfl, rfl, ?_, rfl, rfl, rfl, ?_⟩
    · simp [X402.createPrivateTransaction, X402.generateProofTx,
        X402.calculateWitness, ZKSnark.createProof, hsec]
    · simp [X402.verifyPrivateTransaction, ZKSnark.verifyProof, hnz, hcz]
    · intro row hr
      fin_cases hr <;> rfl
    · intro v hv
      simp [X402.verifyPrivateTransaction, ZKSnark.verifyProof, setPiC1,
        beq_iff_eq, hv.symm]

theorem c2_create_verify_roundtrip_witness :
    let ext : X402.ExtCollab :=
      { nullifierHash := fun _ _ => 1, commitmentHash := fun _ _ _ => 2,
        secretHash := fun _ => 3, encryptAmount := fun _ _ => "" }
    (0 < X402.generateNullifier ext 4 "secret1"
      ∧ 0 < X402.generateCommitment ext 5 100 (X402.generateNullifier ext 4 "secret1"))
    ∧ ∃ tx, X402.createPrivateTransaction ext 4 5 100 "secret1" = some tx
      ∧ X402.verifyPrivateTransaction tx = true
      ∧ tx.proof.protocol = "groth16"
      ∧ tx.proof.pi_a.length = 3
      ∧ tx.proof.pi_b.length = 3
      ∧ (∀ row ∈ tx.proof.pi_b, row.length = 2)
      ∧ tx.proof.pi_c.length = 3
      ∧ tx.proof.pi_c.getD 1 none = some (poseidonHash
          [100, (X402.generateNullifier ext 4 "secret1" : ℤ)])
      ∧ tx.publicInputs = [some (X402.generateNullifier ext 4 "secret1" : ℤ),
          some (X402.generateCommitment ext 5 100
            (X402.generateNullifier ext 4 "secret1") : ℤ)]
      ∧ ∀ v : ℤ, v ≠ poseidonHash
            [100, (X402.generateNullifier ext 4 "secret1" : ℤ)] →
          X402.verifyPrivateTransaction { tx with proof := setPiC1 tx.proof v }
            = false :=
  ⟨⟨by decide, by decide⟩,
    c2_create_verify_roundtrip _ 4 5 100 "secret1" (by decide) (by decide)⟩

/-! ### ConstraintEngine (`circuits/paymentCircuit.ts`) -/

namespace PaymentCircuit

/-- State of a `PaymentCircuit`: the signal map (a JS `Map`, i.e. an
insertion-ordered association list) and the three parallel constraint arrays
`A`/`B`/`C`, embedded as one list of triples (the source only ever pushes to
all three together in `defineConstraint`). -/
structure Circuit where
  signals : List (String × ℤ)
  constraints : List (List ℤ × List ℤ × List ℤ)
deriving DecidableEq

/-- The constructor / `initializeCircuit`: one constant signal `one = 1`. -/
def init : Circuit := { signals := [("one", 1)], constraints := [] }

/-- JS `Map.set`: replace in place if the key exists, else append. -/
def mapSet : List (String × ℤ) → String → ℤ → List (String × ℤ)
  | [], k, v => [(k, v)]
  | (k0, v0) :: rest, k, v =>
    if k0 = k then (k, v) :: rest else (k0, v0) :: mapSet rest k v

def setSignal (c : Circuit) (name : String) (value : ℤ) : Circuit :=
  { c with signals := mapSet c.signals name value }

def getSignal (c : Circuit) (name : String) : Option ℤ :=
  (c.signals.find? (fun p => p.1 == name)).map Prod.snd

def defineConstraint (c : Circuit) (A B C : List ℤ) : Circuit :=
  { c with constraints := c.constraints ++ [(A, B, C)] }

/-- `reduce((acc, val) => acc + val, 0n)`. -/
def listSum (l : List ℤ) : ℤ := l.foldl (fun acc val => acc + val) 0

/-- `verifyCircuit()`: every recorded triple must satisfy
`(ΣA) * (ΣB) = ΣC` over unbounded integers; the body cannot throw, so the
source's `try/catch` never fires. -/
def verifyCircuit (c : Circuit) : Bool :=
  c.constraints.all fun t => decide (listSum t.1 * listSum t.2.1 = listSum t.2.2)

theorem listSum_eq_sum (l : List ℤ) : listSum l = l.sum := by
  rw [listSum, List.sum_eq_foldl]

end PaymentCircuit

/-- C4: `verifyCircuit()` returns true iff every recorded constraint triple
`(A, B, C)` satisfies `(ΣA)·(ΣB) = ΣC` over unbounded integers; and since
constraints snapshot values at recording time, `setSignal` after recording
never changes `verifyCircuit`'s result. -/
theorem c4_verifyCircuit_iff (c : PaymentCircuit.Circuit) :
    (PaymentCircuit.verifyCircuit c = true ↔
      ∀ t ∈ c.constraints, t.1.sum * t.2.1.sum = t.2.2.sum)
    ∧ ∀ name v, PaymentCircuit.verifyCircuit (PaymentCircuit.setSignal c name v)
        = PaymentCircuit.verifyCircuit c := by
  constructor
  · simp only [PaymentCircuit.verifyCircuit, List.all_eq_true, decide_eq_true_eq,
      PaymentCircuit.listSum_eq_sum]
  · intro name v
    rfl


/-! ### MerkleTree and the orchestrator's Merkle reduction

The sibling-combining hash (`keccak256(solidityPacked(left, right))`) and the
zero-hash padding constant (`ethers.ZeroHash`) are external collaborators; the
definitions are parameterized over an abstract binding hash `h` and zero
value `z`. -/

namespace MerkleTree

/-- A JS depth value.  The default is
`Math.ceil(Math.log2(leaves.length)) || 1`; `Math.log2 0 = -Infinity` and
`Math.ceil (-Infinity) = -Infinity`, which is *truthy* in JS, so the default
depth of an empty tree really is `-Infinity`, not `1`. -/
inductive JSDepth where
  | negInf
  | nat (k : ℕ)
deriving DecidableEq

/-- `2 ** depth` (in JS, `2 ** -Infinity = 0`). -/
def pow2 : JSDepth → ℕ
  | .negInf => 0
  | .nat k => 2 ^ k

/-- `Math.ceil(Math.log2 n)` for `n ≥ 1` (the ceiling base-2 logarithm), with
fuel so that it is kernel-computable.  One step of the recurrence
`clog2 n = clog2 (⌈n / 2⌉) + 1` for `n ≥ 2`. -/
def clog2F : ℕ → ℕ → ℕ
  | 0, _ => 0
  | fuel + 1, n => if n ≤ 1 then 0 else clog2F fuel ((n + 1) / 2) + 1

def clog2 (n : ℕ) : ℕ := clog2F n n

/-- The default depth `Math.ceil(Math.log2 n) || 1` of the constructor. -/
def defaultDepth (n : ℕ) : JSDepth :=
  if n = 0 then .negInf
  else if clog2 n = 0 then .nat 1 else .nat (clog2 n)

/-- One pass of the pairwise-combining loop; the odd last element is paired
with itself (`right = i + 1 < length ? layer[i+1] : layer[i]`).  This loop
occurs verbatim in `MerkleTree.buildTree`, `X402Protocol.computeMerkleRoot`
and `X402Protocol.createMerkleProof`. -/
def hashPairs {α : Type} (h : α → α → α) : List α → List α
  | [] => []
  | [a] => [h a a]
  | a :: b :: rest => h a b :: hashPairs h rest

/-- The padding loop of `buildTree`: push the zero hash until the layer has
`2 ^ depth` entries. -/
def padTo {α : Type} (z : α) (n : ℕ) (l : List α) : List α :=
  l ++ List.replicate (n - l.length) z

/-- The `while (currentLayer.length > 1)` layer-building loop, with fuel (the
initial layer length dominates the number of halving steps). -/
def buildLayersF {α : Type} (h : α → α → α) : ℕ → List α → List (List α)
  | 0, l => [l]
  | fuel + 1, l =>
    if l.length ≤ 1 then [l] else l :: buildLayersF h fuel (hashPairs h l)

/-- `buildTree()`: pad layer 0 to `2 ^ depth`, then repeatedly hash pairs
until a single node remains, collecting every layer. -/
def buildTree {α : Type} (h : α → α → α) (z : α) (depth : JSDepth)
    (leaves : List α) : List (List α) :=
  let layer0 := padTo z (pow2 depth) leaves
  buildLayersF h layer0.length layer0

structure MTree (α : Type) where
  leaves : List α
  depth : JSDepth
  layers : List (List α)

/-- The constructor: `this.depth = depth || Math.ceil(Math.log2(n)) || 1` (an
explicit depth of `0` is falsy and falls through to the default), then
`buildTree`. -/
def build {α : Type} (h : α → α → α) (z : α) (leaves : List α)
    (depth? : Option ℕ) : MTree α :=
  let d := match depth? with
    | some dp => if dp = 0 then defaultDepth leaves.length else .nat dp
    | none => defaultDepth leaves.length
  { leaves := leaves, depth := d, layers := buildTree h z d leaves }

/-- `getRoot()`: `layers[layers.length - 1][0]`. -/
def MTree.getRoot {α : Type} (t : MTree α) (z : α) : α :=
  (t.layers.getLastD []).headD z

/-- The sibling-collecting loop of `getProof`, over every layer but the last
(`for i in 0 .. layers.length - 2`): the sibling index is `c - 1` for a right
child and `c + 1` for a left child, pushed only when in range. -/
def getProofAux {α : Type} (z : α) : List (List α) → ℕ → List α
  | [], _ => []
  | [_], _ => []
  | l :: l2 :: rest, c =>
    let sib := if c % 2 = 1 then c - 1 else c + 1
    (if sib < l.length then [l.getD sib z] else [])
      ++ getProofAux z (l2 :: rest) (c / 2)

/-- `getProof(index)`: throws (`none`) when the index is outside
`[0, leaves.length)`. -/
def MTree.getProof {α : Type} (t : MTree α) (z : α) (index : ℕ) : Option (List α) :=
  if index < t.leaves.length then some (getProofAux z t.layers index) else none

/-- The path-recomputation loop of the static `verifyProof`: at each step the
index parity decides the hashing order, then the index halves. -/
def verifyAux {α : Type} (h : α → α → α) : α → List α → ℕ → α
  | cur, [], _ => cur
  | cur, pe :: rest, idx =>
    verifyAux h (if idx % 2 = 0 then h cur pe else h pe cur) rest (idx / 2)

/-- Static `MerkleTree.verifyProof(leaf, proof, root, index)`. -/
def verifyProof {α : Type} [DecidableEq α] (h : α → α → α) (leaf : α)
    (proof : List α) (root : α) (index : ℕ) : Bool :=
  verifyAux h leaf proof index == root

end MerkleTree

namespace X402

/-- `X402Protocol.computeMerkleRoot` (recursive pairwise reduction, with
fuel): empty list returns the zero hash, a singleton returns its leaf,
otherwise one `hashPairs` pass and recurse. -/
def computeMerkleRootF {α : Type} (h : α → α → α) (z : α) : ℕ → List α → α
  | 0, [] => z
  | 0, [a] => a
  | 0, _ :: _ :: _ => z
  | _ + 1, [] => z
  | _ + 1, [a] => a
  | fuel + 1, a :: b :: rest =>
    computeMerkleRootF h z fuel (MerkleTree.hashPairs h (a :: b :: rest))

def computeMerkleRoot {α : Type} (h : α → α → α) (z : α) (leaves : List α) : α :=
  computeMerkleRootF h z leaves.length leaves

end X402

/-! ### Merkle lemmas -/

namespace MerkleTree

theorem clog2F_eq : ∀ fuel n, n ≤ fuel → clog2F fuel n = Nat.clog 2 n := by
  intro fuel
  induction fuel with
  | zero =>
    intro n h
    have h0 : n = 0 := by omega
    subst h0
    rw [clog2F, Nat.clog_of_right_le_one (by omega)]
  | succ fuel ih =>
    intro n h
    by_cases h1 : n ≤ 1
    · rw [clog2F, if_pos h1, Nat.clog_of_right_le_one h1]
    · rw [clog2F, if_neg h1, ih ((n + 1) / 2) (by omega)]
      conv_rhs => rw [Nat.clog_of_two_le (by norm_num) (by omega)]
      norm_num

theorem clog2_eq (n : ℕ) : clog2 n = Nat.clog 2 n :=
  clog2F_eq n n le_rfl

theorem hashPairs_length {α : Type} (h : α → α → α) :
    ∀ l : List α, (hashPairs h l).length = (l.length + 1) / 2
  | [] => by simp [hashPairs]
  | [a] => by simp [hashPairs]
  | a :: b :: rest => by
    have ih := hashPairs_length h rest
    simp only [hashPairs, List.length_cons, ih]
    omega

theorem hashPairs_getD {α : Type} (h : α → α → α) (z : α) :
    ∀ (l : List α) (k : ℕ), 2 * k + 1 < l.length →
      (hashPairs h l).getD k z = h (l.getD (2 * k) z) (l.getD (2 * k + 1) z)
  | [], k, hlt => by simp at hlt
  | [a], k, hlt => by simp only [List.length_singleton] at hlt; omega
  | a :: b :: rest, 0, hlt => by simp [hashPairs]
  | a :: b :: rest, k + 1, hlt => by
    have ih := hashPairs_getD h z rest k (by
      simp only [List.length_cons] at hlt
      omega)
    rw [show 2 * (k + 1) = 2 * k + 1 + 1 by ring]
    simp only [hashPairs, List.getD_cons_succ]
    exact ih

theorem buildLayersF_eq_cons {α : Type} (h : α → α → α) (fuel : ℕ) (l : List α) :
    ∃ rest, buildLayersF h fuel l = l :: rest := by
  cases fuel with
  | zero => exact ⟨[], rfl⟩
  | succ fuel =>
    rw [buildLayersF]
    split
    · exact ⟨[], rfl⟩
    · exact ⟨_, rfl⟩

theorem buildLayersF_headD {α : Type} (h : α → α → α) (fuel : ℕ) (l : List α) :
    (buildLayersF h fuel l).headD [] = l := by
  obtain ⟨rest, hr⟩ := buildLayersF_eq_cons h fuel l
  rw [hr]
  rfl

/-- Correctness of proof generation against path recomputation, over the
layer list built from a full layer of `2 ^ m` nodes. -/
theorem verify_buildLayersF {α : Type} (h : α → α → α) (z : α) :
    ∀ (m fuel : ℕ) (l : List α) (c : ℕ),
      l.length = 2 ^ m → l.length ≤ fuel → c < l.length →
      verifyAux h (l.getD c z) (getProofAux z (buildLayersF h fuel l) c) c
        = ((buildLayersF h fuel l).getLastD []).headD z := by
  intro m
  induction m with
  | zero =>
    intro fuel l c hlen hfuel hc
    obtain ⟨x, rfl⟩ : ∃ x, l = [x] := by
      cases l with
      | nil => simp at hlen
      | cons a rest =>
        cases rest with
        | nil => exact ⟨a, rfl⟩
        | cons b r2 =>
          exfalso
          simp only [List.length_cons, pow_zero] at hlen
          omega
    have hc0 : c = 0 := by
      simp only [List.length_singleton] at hc
      omega
    subst hc0
    cases fuel with
    | zero => simp [buildLayersF, getProofAux, verifyAux]
    | succ fuel => simp [buildLayersF, getProofAux, verifyAux]
  | succ m ih =>
    intro fuel l c hlen hfuel hc
    have h2m : 2 ^ (m + 1) = 2 * 2 ^ m := by ring
    have h1m : 1 ≤ 2 ^ m := Nat.one_le_two_pow
    have hlen2 : 2 ≤ l.length := by omega
    obtain ⟨f, rfl⟩ : ∃ f, fuel = f + 1 := ⟨fuel - 1, by omega⟩
    rw [buildLayersF, if_neg (by omega)]
    obtain ⟨rest2, hrest⟩ := buildLayersF_eq_cons h f (hashPairs h l)
    rw [hrest]
    have hsib : (if c % 2 = 1 then c - 1 else c + 1) < l.length := by
      split <;> omega
    simp only [getProofAux]
    rw [if_pos hsib, List.singleton_append]
    simp only [verifyAux]
    have hplen : (hashPairs h l).length = 2 ^ m := by
      rw [hashPairs_length]
      omega
    have hstep : (if c % 2 = 0
          then h (l.getD c z) (l.getD (if c % 2 = 1 then c - 1 else c + 1) z)
          else h (l.getD (if c % 2 = 1 then c - 1 else c + 1) z) (l.getD c z))
        = (hashPairs h l).getD (c / 2) z := by
      by_cases hpar : c % 2 = 1
      · have e2 : c = 2 * (c / 2) + 1 := by omega
        have e1 : c - 1 = 2 * (c / 2) := by omega
        rw [if_neg (by omega), if_pos hpar,
          hashPairs_getD h z l (c / 2) (by omega), ← e2, ← e1]
      · have e2 : c + 1 = 2 * (c / 2) + 1 := by omega
        have e1 : c = 2 * (c / 2) := by omega
        rw [if_pos (by omega), if_neg hpar,
          hashPairs_getD h z l (c / 2) (by omega), ← e2, ← e1]
    rw [hstep]
    have hmain := ih f (hashPairs h l) (c / 2) hplen (by omega) (by omega)
    rw [hrest] at hmain
    rw [hmain]
    simp [List.getLastD_cons]

theorem computeMerkleRootF_eq_root {α : Type} (h : α → α → α) (z : α) :
    ∀ (m fuel : ℕ) (l : List α), l.length = 2 ^ m → l.length ≤ fuel →
      X402.computeMerkleRootF h z fuel l
        = ((buildLayersF h fuel l).getLastD []).headD z := by
  intro m
  induction m with
  | zero =>
    intro fuel l hlen hfuel
    obtain ⟨x, rfl⟩ : ∃ x, l = [x] := by
      cases l with
      | nil => simp at hlen
      | cons a rest =>
        cases rest with
        | nil => exact ⟨a, rfl⟩
        | cons b r2 =>
          exfalso
          simp only [List.length_cons, pow_zero] at hlen
          omega
    cases fuel with
    | zero => simp [X402.computeMerkleRootF, buildLayersF]
    | succ f => simp [X402.computeMerkleRootF, buildLayersF]
  | succ m ih =>
    intro fuel l hlen hfuel
    have h2m : 2 ^ (m + 1) = 2 * 2 ^ m := by ring
    have h1m : 1 ≤ 2 ^ m := Nat.one_le_two_pow
    have hlen2 : 2 ≤ l.length := by omega
    obtain ⟨f, rfl⟩ : ∃ f, fuel = f + 1 := ⟨fuel - 1, by omega⟩
    obtain ⟨a, b, rest, rfl⟩ : ∃ a b rest, l = a :: b :: rest := by
      cases l with
      | nil => simp at hlen2
      | cons a r1 =>
        cases r1 with
        | nil => simp at hlen2
        | cons b r2 => exact ⟨a, b, r2, rfl⟩
    rw [X402.computeMerkleRootF, buildLayersF,
      if_neg (by simp only [List.length_cons]; omega)]
    have hplen : (hashPairs h (a :: b :: rest)).length = 2 ^ m := by
      rw [hashPairs_length]
      simp only [List.length_cons] at hlen ⊢
      omega
    obtain ⟨rest2, hrest⟩ := buildLayersF_eq_cons h f (hashPairs h (a :: b :: rest))
    have hmain := ih f (hashPairs h (a :: b :: rest)) hplen (by
      simp only [List.length_cons] at hlen hfuel
      omega)
    rw [hrest] at hmain
    rw [hrest, hmain]
    simp [List.getLastD_cons]

/-- `n ≤ 2 ^ (default depth of n)`. -/
theorem le_two_pow_depth (n : ℕ) :
    n ≤ 2 ^ (if clog2 n = 0 then 1 else clog2 n) := by
  have hle := Nat.le_pow_clog (by norm_num : (1 : ℕ) < 2) n
  rw [← clog2_eq] at hle
  split
  · next hc =>
    rw [hc] at hle
    simp only [pow_zero] at hle
    rw [pow_one]
    omega
  · next => exact hle

end MerkleTree

/-! ### C5: Merkle proof generation / verification round trip -/

/-- C5: for every non-empty leaf list `L`, a `MerkleTree` built from `L` with
the default depth, and every index `i < L.length`, the static
`verifyProof(L[i], getProof(i), getRoot(), i)` returns true. -/
theorem c5_merkle_proof_roundtrip {α : Type} [DecidableEq α] (h : α → α → α)
    (z : α) (L : List α) (hL : L ≠ []) (i : ℕ) (hi : i < L.length) :
    ∃ pf, (MerkleTree.build h z L none).getProof z i = some pf
      ∧ MerkleTree.verifyProof h (L.getD i z) pf
          ((MerkleTree.build h z L none).getRoot z) i = true := by
  have hn : L.length ≠ 0 := fun h0 => hL (List.length_eq_zero.mp h0)
  set dd := if MerkleTree.clog2 L.length = 0 then 1 else MerkleTree.clog2 L.length
    with hdd
  have hdef : MerkleTree.defaultDepth L.length = .nat dd := by
    rw [MerkleTree.defaultDepth, if_neg hn, hdd]
    split <;> rfl
  have hle : L.length ≤ 2 ^ dd := by
    rw [hdd]
    exact MerkleTree.le_two_pow_depth L.length
  have hlen0 : (MerkleTree.padTo z (2 ^ dd) L).length = 2 ^ dd := by
    simp only [MerkleTree.padTo, List.length_append, List.length_replicate]
    omega
  have hmain := MerkleTree.verify_buildLayersF h z dd
    (MerkleTree.padTo z (2 ^ dd) L).length (MerkleTree.padTo z (2 ^ dd) L) i
    hlen0 le_rfl (by omega)
  have hlayers : (MerkleTree.build h z L none).layers
      = MerkleTree.buildLayersF h (MerkleTree.padTo z (2 ^ dd) L).length
          (MerkleTree.padTo z (2 ^ dd) L) := by
    simp only [MerkleTree.build, MerkleTree.buildTree, hdef, MerkleTree.pow2]
  have hleaf : (MerkleTree.padTo z (2 ^ dd) L).getD i z = L.getD i z :=
    List.getD_append L _ z i hi
  refine ⟨MerkleTree.getProofAux z (MerkleTree.build h z L none).layers i, ?_, ?_⟩
  · rw [MerkleTree.MTree.getProof,
      if_pos (show i < (MerkleTree.build h z L none).leaves.length from hi)]
  · rw [MerkleTree.verifyProof, MerkleTree.MTree.getRoot, hlayers, ← hleaf, hmain]
    exact beq_self_eq_true _

theorem c5_merkle_proof_roundtrip_witness :
    (([1, 2, 3] : List ℕ) ≠ [] ∧ 2 < ([1, 2, 3] : List ℕ).length)
    ∧ ∃ pf,
      (MerkleTree.build (fun x y : ℕ => x + 2 * y + 1) 0 [1, 2, 3] none).getProof 0 2
          = some pf
      ∧ MerkleTree.verifyProof (fun x y : ℕ => x + 2 * y + 1)
          (([1, 2, 3] : List ℕ).getD 2 0) pf
          ((MerkleTree.build (fun x y : ℕ => x + 2 * y + 1) 0 [1, 2, 3] none).getRoot 0)
          2 = true :=
  ⟨⟨by decide, by decide⟩,
    c5_merkle_proof_roundtrip (fun x y : ℕ => x + 2 * y + 1) 0 [1, 2, 3]
      (by decide) 2 (by decide)⟩

/-! ### C6: construction, default depth and padding -/

/-- C6 (amended): for every *non-empty* leaf list, construction without an
explicit depth sets the depth to `ceil(log2 n)` with a minimum of `1`, and
layer 0 is the original leaves right-padded with the zero hash to exactly
`2 ^ depth` entries.  (On the empty list the JS default depth is `-Infinity`,
not `1` — see the counterexample.) -/
theorem c6_default_depth_and_padding {α : Type} (h : α → α → α) (z : α)
    (L : List α) (hL : L ≠ []) :
    (MerkleTree.build h z L none).depth
        = MerkleTree.JSDepth.nat (max (MerkleTree.clog2 L.length) 1)
    ∧ (MerkleTree.build h z L none).layers.headD []
        = L ++ List.replicate (2 ^ max (MerkleTree.clog2 L.length) 1 - L.length) z
    ∧ ((MerkleTree.build h z L none).layers.headD []).length
        = 2 ^ max (MerkleTree.clog2 L.length) 1 := by
  have hn : L.length ≠ 0 := fun h0 => hL (List.length_eq_zero.mp h0)
  have hmax : (if MerkleTree.clog2 L.length = 0 then 1 else MerkleTree.clog2 L.length)
      = max (MerkleTree.clog2 L.length) 1 := by
    split <;> omega
  have hdef : MerkleTree.defaultDepth L.length
      = MerkleTree.JSDepth.nat (max (MerkleTree.clog2 L.length) 1) := by
    rw [MerkleTree.defaultDepth, if_neg hn, ← hmax]
    split <;> rfl
  have hle : L.length ≤ 2 ^ max (MerkleTree.clog2 L.length) 1 := by
    rw [← hmax]
    exact MerkleTree.le_two_pow_depth L.length
  refine ⟨?_, ?_, ?_⟩
  · simp only [MerkleTree.build, hdef]
  · simp only [MerkleTree.build, MerkleTree.buildTree, hdef, MerkleTree.pow2,
      MerkleTree.buildLayersF_headD, MerkleTree.padTo]
  · simp only [MerkleTree.build, MerkleTree.buildTree, hdef, MerkleTree.pow2,
      MerkleTree.buildLayersF_headD, MerkleTree.padTo, List.length_append,
      List.length_replicate]
    omega

theorem c6_default_depth_and_padding_witness :
    ([5] : List ℕ) ≠ [] ∧
    ((MerkleTree.build (fun x y : ℕ => x + y) 0 [5] none).depth
        = MerkleTree.JSDepth.nat (max (MerkleTree.clog2 ([5] : List ℕ).length) 1)
      ∧ (MerkleTree.build (fun x y : ℕ => x + y) 0 [5] none).layers.headD []
        = [5] ++ List.replicate
            (2 ^ max (MerkleTree.clog2 ([5] : List ℕ).length) 1 - ([5] : List ℕ).length) 0
      ∧ ((MerkleTree.build (fun x y : ℕ => x + y) 0 [5] none).layers.headD []).length
        = 2 ^ max (MerkleTree.clog2 ([5] : List ℕ).length) 1) :=
  ⟨by decide, c6_default_depth_and_padding (fun x y : ℕ => x + y) 0 [5] (by decide)⟩

/-- C6 counterexample: on the empty leaf list the claim fails.  JS evaluates
`Math.ceil(Math.log2(0)) = -Infinity`, which is truthy, so the stored default
depth is `-Infinity` — not the claimed minimum of `1` — and layer 0 has
`2 ** -Infinity = 0` entries, not `2 ^ 1`. -/
theorem c6_counterexample :
    (MerkleTree.build (fun x y : ℕ => x + y) 0 ([] : List ℕ) none).depth
        = MerkleTree.JSDepth.negInf
    ∧ MerkleTree.JSDepth.negInf
        ≠ MerkleTree.JSDepth.nat (max (MerkleTree.clog2 ([] : List ℕ).length) 1)
    ∧ ((MerkleTree.build (fun x y : ℕ => x + y) 0 ([] : List ℕ) none).layers.headD
        []).length = 0
    ∧ (0 : ℕ) ≠ 2 ^ max (MerkleTree.clog2 ([] : List ℕ).length) 1 := by
  refine ⟨rfl, by decide, rfl, by decide⟩

/-! ### C3: orchestrator Merkle reduction vs MerkleTree -/

/-- C3 (amended): for every leaf list whose length is `2 ^ k` with `k ≥ 1`,
the orchestrator's recursive pairwise reduction `computeMerkleRoot` computes
the same root as a `MerkleTree` built from the same leaves with the default
depth.  (For other lengths the two differ: `computeMerkleRoot` duplicates an
odd trailing node at each level, while `MerkleTree` first pads layer 0 with
the zero hash up to `2 ^ depth` — see the counterexample.) -/
theorem c3_computeMerkleRoot_eq_tree_root {α : Type} (h : α → α → α) (z : α)
    (L : List α) (k : ℕ) (hk : 1 ≤ k) (hlen : L.length = 2 ^ k) :
    X402.computeMerkleRoot h z L = (MerkleTree.build h z L none).getRoot z := by
  have hclog : MerkleTree.clog2 L.length = k := by
    rw [MerkleTree.clog2_eq, hlen, Nat.clog_pow 2 k (by norm_num)]
  have hn : L.length ≠ 0 := by
    rw [hlen]
    positivity
  have hdef : MerkleTree.defaultDepth L.length = MerkleTree.JSDepth.nat k := by
    rw [MerkleTree.defaultDepth, if_neg hn, hclog, if_neg (by omega)]
  have hpad : MerkleTree.padTo z (2 ^ k) L = L := by
    rw [MerkleTree.padTo, hlen, Nat.sub_self, List.replicate_zero, List.append_nil]
  have hmain := MerkleTree.computeMerkleRootF_eq_root h z k L.length L hlen le_rfl
  rw [X402.computeMerkleRoot, hmain]
  simp only [MerkleTree.MTree.getRoot, MerkleTree.build, MerkleTree.buildTree,
    hdef, MerkleTree.pow2, hpad]

theorem c3_computeMerkleRoot_eq_tree_root_witness :
    ((1 : ℕ) ≤ 1 ∧ ([10, 20] : List ℕ).length = 2 ^ 1)
    ∧ X402.computeMerkleRoot (fun x y : ℕ => x + 2 * y + 1) 0 [10, 20]
        = (MerkleTree.build (fun x y : ℕ => x + 2 * y + 1) 0 [10, 20] none).getRoot 0 :=
  ⟨⟨by decide, by decide⟩,
    c3_computeMerkleRoot_eq_tree_root (fun x y : ℕ => x + 2 * y + 1) 0 [10, 20] 1
      (by decide) (by decide)⟩

/-- C3 counterexample: the claimed equality fails already for a single leaf
(the reduction returns the leaf, the tree pads to two and hashes) and for
three leaves (odd-node duplication versus zero-hash padding), refuting the
claim for arbitrary non-empty leaf lists. -/
theorem c3_counterexample :
    X402.computeMerkleRoot (fun x y : ℕ => x + 2 * y + 1) 0 [1]
        ≠ (MerkleTree.build (fun x y : ℕ => x + 2 * y + 1) 0 [1] none).getRoot 0
    ∧ X402.computeMerkleRoot (fun x y : ℕ => x + 2 * y + 1) 0 [1, 2, 3]
        ≠ (MerkleTree.build (fun x y : ℕ => x + 2 * y + 1) 0 [1, 2, 3] none).getRoot 0 := by
  refine ⟨by decide, by decide⟩
